import Mathlib

/-!
A verification development for `src/vectorized.ts`: the `vectorized`
method decorator, the abstract dispatcher `VectorFunction.call`, and the
elementwise fallback engine `ArrayVectorFunction`.

The embedding works over a small JavaScript-style value domain `Val`.
Targets are an abstract type `T` together with a `TargetModel`: a member
table (JS property lookup, `target[name]`) and a metadata table
(`Reflect.getMetadata(vectorizedKey, target, method)`).  Function members
take the receiver (`this`) explicitly.  Thrown engine errors become
`Except EngineError` results.
-/

/-- JavaScript-style runtime values appearing as call arguments and
results: numbers, arrays, and `undefined`.  (Out-of-range array reads in
the source yield `undefined`; the model does the same.) -/
inductive Val : Type where
  | int (n : Int)
  | arr (elems : List Val)
  | undef
deriving Repr

/-- The JS property read `v.length`: `some` of the length for an array,
`undefined` (here `none`) for any non-array value. -/
def Val.jsLength : Val → Option Nat
  | .arr xs => some xs.length
  | _ => none

/-- The cast `params[index] as any[]` of `vectorizeSingularCall`: the
source's types guarantee the value is an array there; a non-array is
mapped to `[]` (that path is never reached on well-typed calls). -/
def Val.asArr : Val → List Val
  | .arr xs => xs
  | _ => []

/-- The errors the engine throws: `"Must have at least one vectorized
parameter"` at construction, `"Vector lengths not equal"` in
`vectorizeSingularCall`, and a JS `TypeError` if `target[this.method]`
is not a function (unreachable on well-typed targets). -/
inductive EngineError : Type where
  | configurationError
  | lengthMismatchError
  | typeError
deriving Repr, DecidableEq

/-- The value stored by the `vectorized` decorator under the metadata
key: either a symbolic member name (string/symbol) or a directly captured
function value. -/
inductive Override (T : Type) : Type where
  | name (s : String)
  | fn (f : T → List Val → Val)

/-- JS truthiness of the stored metadata value, as tested by
`specialized ? ... : undefined`: a function is always truthy, a string is
truthy iff nonempty. -/
def Override.truthy {T : Type} : Override T → Bool
  | .name s => s ≠ ""
  | .fn _ => true

/-- The runtime facilities `VectorFunction.call` uses on a target:
`getMember t s` models the property lookup `(t as any)[s]` restricted to
function-valued members (`none` = absent/`undefined`), `getMetadata t m`
models `Reflect.getMetadata(vectorizedKey, t, m)`. -/
structure TargetModel (T : Type) : Type where
  getMember : T → String → Option (T → List Val → Val)
  getMetadata : T → String → Option (Override T)

/-- The metadata value the `vectorized` decorator stores for a property:
`specialVersion ?? propertyKey + "_vectorized"`. -/
def vectorizedDecoratorValue {T : Type} (specialVersion : Option (Override T))
    (propertyKey : String) : Override T :=
  specialVersion.getD (Override.name (propertyKey ++ "_vectorized"))

/-- `Math.min(...xs)` over a nonempty spread; the `[]` case is guarded
out in the constructor before this is evaluated. -/
def listMin : List Nat → Nat
  | [] => 0
  | x :: xs => xs.foldl Nat.min x

/-- The constructor pipeline computing `vectorizedParameterIndices`:
`flags.map((flag, index) => ({flag, index})).filter(({flag}) => flag)
.map(({index}) => index)`. -/
def vectorizedIndicesOf (flags : List Bool) : List Nat :=
  ((flags.enum).filter (fun p => p.2)).map (fun p => p.1)

/-- The state of a constructed `ArrayVectorFunction`: the scalar method
name (field of the superclass `VectorFunction`), the flags passed to the
constructor, and the two derived fields. -/
structure ArrayVectorFunction : Type where
  method : String
  vectorizedParameterFlags : List Bool
  vectorizedParameterIndices : List Nat
  sliceIndex : Nat
deriving Repr, DecidableEq

/-- `new ArrayVectorFunction(method, vectorizedParameterFlags)`: derive
the vectorized indices, throw if there are none, otherwise set
`sliceIndex = Math.min(...indices)`. -/
def ArrayVectorFunction.make (method : String) (flags : List Bool) :
    Except EngineError ArrayVectorFunction :=
  let indices := vectorizedIndicesOf flags
  if indices.length = 0 then
    Except.error EngineError.configurationError
  else
    Except.ok ⟨method, flags, indices, listMin indices⟩

/-- The length-mismatch test of `vectorizeSingularCall`:
`lengths = indices.map(i => params[i].length)` followed by
`lengths.some(length => length != lengths[0])`.  JS loose `!=` on the
values that can appear (numbers and `undefined`) is inequality on
`Option Nat`. -/
def lengthCheckFails (indices : List Nat) (params : List Val) : Bool :=
  let lengths := indices.map (fun i => (params.getD i Val.undef).jsLength)
  lengths.any (fun l => decide (l ≠ lengths.headD none))

/-- One pass of the inner `for` loop at element index `i`:
`dynamicArgs[vectorizedParameterIndex - sliceIndex] = items[j][i]` for
each pair `(vectorizedParameterIndex, items[j])`, in declaration order. -/
def substVectorized (slice : Nat) (idxItems : List (Nat × List Val)) (i : Nat)
    (d : List Val) : List Val :=
  idxItems.foldl (fun d p => d.set (p.1 - slice) (p.2.getD i Val.undef)) d

/-- The outer `for` loop of `vectorizeSingularCall`: `i` is the current
index, the second argument the number of remaining iterations, `d` the
current (mutated-in-place) `dynamicArgs` buffer.  Each iteration rewrites
the vectorized slots of `d`, invokes the bound method on
`staticArgs ++ d`, and stores the result at position `i` of the output. -/
def vecLoop (meth : List Val → Val) (staticArgs : List Val) (slice : Nat)
    (idxItems : List (Nat × List Val)) : Nat → Nat → List Val → List Val
  | _, 0, _ => []
  | i, n + 1, d =>
    let d1 := substVectorized slice idxItems i d
    meth (staticArgs ++ d1) :: vecLoop meth staticArgs slice idxItems (i + 1) n d1

/-- `items = this.vectorizedParameterIndices.map(index => params[index] as any[])`. -/
def itemsOf (vf : ArrayVectorFunction) (params : List Val) : List (List Val) :=
  vf.vectorizedParameterIndices.map (fun i => (params.getD i Val.undef).asArr)

/-- `ArrayVectorFunction.vectorizeSingularCall(target, singularMethod, params)`:
validate lengths when more than one position is vectorized, then run the
elementwise loop over `items[0].length` indices.  `singularMethod` is
`target[this.method]` with the receiver still explicit; the source's
`singularMethod.bind(target, ...staticArgs)` followed by
`method(...dynamicArgs)` is the call on `staticArgs ++ dynamicArgs`. -/
def ArrayVectorFunction.vectorizeSingularCall {T : Type} (vf : ArrayVectorFunction)
    (target : T) (singularMethod : T → List Val → Val) (params : List Val) :
    Except EngineError Val :=
  if vf.vectorizedParameterIndices.length > 1 &&
      lengthCheckFails vf.vectorizedParameterIndices params then
    Except.error EngineError.lengthMismatchError
  else
    let items := itemsOf vf params
    let n := (items.headD []).length
    let staticArgs := params.take vf.sliceIndex
    let dynamicArgs := params.drop vf.sliceIndex
    Except.ok (Val.arr (vecLoop (fun args => singularMethod target args) staticArgs
      vf.sliceIndex (vf.vectorizedParameterIndices.zip items) 0 n dynamicArgs))

/-- The specialization lookup at the top of `VectorFunction.call`:
`specialized = Reflect.getMetadata(vectorizedKey, target, this.method)`,
then `specialized ? (typeof specialized === 'function' ? specialized :
target[specialized]) : undefined`. -/
def resolveSpecialized {T : Type} (M : TargetModel T) (method : String) (target : T) :
    Option (T → List Val → Val) :=
  match M.getMetadata target method with
  | none => none
  | some spec =>
    if spec.truthy then
      match spec with
      | .fn f => some f
      | .name s => M.getMember target s
    else none

/-- `VectorFunction.call(target, ...params)`: invoke the specialized
function with the target as receiver and the raw parameters if one
resolves, otherwise fall back to
`vectorizeSingularCall(target, target[this.method], params)`. -/
def VectorFunction.call {T : Type} (M : TargetModel T) (vf : ArrayVectorFunction)
    (target : T) (params : List Val) : Except EngineError Val :=
  match resolveSpecialized M vf.method target with
  | some specializedFunction => Except.ok (specializedFunction target params)
  | none =>
    match M.getMember target vf.method with
    | some singularMethod => vf.vectorizeSingularCall target singularMethod params
    | none => Except.error EngineError.typeError

/-- The argument list the scalar method receives on element index `i` of
the fallback loop: the static prefix `params.take slice`, followed by the
dynamic window `params.drop slice` with, at each vectorized position's
offset, the `i`-th element of that position's argument array
substituted. -/
def callArgsAt (slice : Nat) (idxItems : List (Nat × List Val)) (params : List Val)
    (i : Nat) : List Val :=
  params.take slice ++ substVectorized slice idxItems i (params.drop slice)

/-!
A heap-level rendering of the fallback path, used to state the frame
property: JS arrays are references into a store of cells, so the
distinction between writing into the engine's own `dynamicArgs` slice
copy and mutating a caller-supplied array is visible.  Scalar values are
immediate; arrays are cell references.
-/

/-- A JS value as it sits in an argument slot or array cell: an immediate
(primitive) value or a reference to an array cell. -/
inductive HVal : Type where
  | imm (v : Val)
  | ref (r : Nat)
deriving Repr

/-- The store of array cells; cell `r` is `cells[r]`. -/
structure Heap : Type where
  cells : List (List HVal)
deriving Repr

/-- Dereference an array cell. -/
def Heap.readCell (h : Heap) (r : Nat) : List HVal :=
  h.cells.getD r []

/-- The element write `a[i] = v` on the array referenced by `r`. -/
def Heap.writeIdx (h : Heap) (r i : Nat) (v : HVal) : Heap :=
  ⟨h.cells.set r ((h.cells.getD r []).set i v)⟩

/-- Allocate a fresh array cell (as `Array.prototype.slice` does),
returning the new heap and the new reference. -/
def Heap.alloc (h : Heap) (xs : List HVal) : Heap × Nat :=
  (⟨h.cells ++ [xs]⟩, h.cells.length)

/-- `x.length` at heap level: the referenced cell's length for an array
reference, the immediate value's `.length` otherwise. -/
def HVal.jsLengthH (h : Heap) : HVal → Option Nat
  | .imm v => v.jsLength
  | .ref r => some (h.readCell r).length

/-- The indexed read `x[i]` at heap level; only array references have
elements, anything else reads as `undefined`. -/
def HVal.indexH (h : Heap) : HVal → Nat → HVal
  | .ref r, i => (h.readCell r).getD i (HVal.imm Val.undef)
  | .imm _, _ => HVal.imm Val.undef

/-- The length-mismatch test of `vectorizeSingularCall` at heap level. -/
def lengthCheckFailsH (h : Heap) (indices : List Nat) (params : List HVal) : Bool :=
  let lengths := indices.map (fun i =>
    HVal.jsLengthH h (params.getD i (HVal.imm Val.undef)))
  lengths.any (fun l => decide (l ≠ lengths.headD none))

/-- The inner `for` loop at element index `i`, heap level: each
vectorized position's offset of the `dynamicArgs` cell (reference
`dynRef`) is overwritten with `items[j][i]`. -/
def substHeapWrites (slice dynRef : Nat) (idxItems : List (Nat × HVal)) (i : Nat)
    (h : Heap) : Heap :=
  idxItems.foldl (fun h p => h.writeIdx dynRef (p.1 - slice) (HVal.indexH h p.2 i)) h

/-- The outer `for` loop at heap level: rewrite the vectorized slots of
the `dynamicArgs` cell, invoke the bound method on the static prefix
followed by the cell's current contents, collect results in index
order. -/
def vecLoopHeap (meth : List HVal → HVal) (staticArgs : List HVal)
    (slice dynRef : Nat) (idxItems : List (Nat × HVal)) :
    Nat → Nat → Heap → Heap × List HVal
  | _, 0, h => (h, [])
  | i, n + 1, h =>
    let h1 := substHeapWrites slice dynRef idxItems i h
    let v := meth (staticArgs ++ h1.readCell dynRef)
    let rest := vecLoopHeap meth staticArgs slice dynRef idxItems (i + 1) n h1
    (rest.1, v :: rest.2)

/-- `vectorizeSingularCall` at heap level: validate lengths, take the
static prefix as bound values, allocate the engine's own `dynamicArgs`
cell as a slice copy of the argument tail, and run the elementwise loop.
The caller's vectorized arrays are only ever read through `indexH`. -/
def vectorizeSingularCallHeap (vf : ArrayVectorFunction) (meth : List HVal → HVal)
    (params : List HVal) (h : Heap) : Heap × Except EngineError (List HVal) :=
  if vf.vectorizedParameterIndices.length > 1 &&
      lengthCheckFailsH h vf.vectorizedParameterIndices params then
    (h, Except.error EngineError.lengthMismatchError)
  else
    let items := vf.vectorizedParameterIndices.map
      (fun i => params.getD i (HVal.imm Val.undef))
    let n := (HVal.jsLengthH h (items.headD (HVal.imm Val.undef))).getD 0
    let staticArgs := params.take vf.sliceIndex
    let alloc1 := h.alloc (params.drop vf.sliceIndex)
    let looped := vecLoopHeap meth staticArgs vf.sliceIndex alloc1.2
      (vf.vectorizedParameterIndices.zip items) 0 n alloc1.1
    (looped.1, Except.ok looped.2)

/-! ### Lemmas about `listMin` (`Math.min` over a spread) -/

lemma foldlMin_le_init : ∀ (xs : List Nat) (a : Nat), xs.foldl Nat.min a ≤ a
  | [], a => le_refl a
  | x :: xs, a =>
    le_trans (foldlMin_le_init xs (Nat.min a x)) (Nat.min_le_left a x)

lemma foldlMin_le_mem : ∀ (xs : List Nat) (a y : Nat), y ∈ xs → xs.foldl Nat.min a ≤ y
  | x :: xs, a, y, h => by
    rcases List.mem_cons.1 h with rfl | h
    · exact le_trans (foldlMin_le_init xs (Nat.min a y)) (Nat.min_le_right a y)
    · exact foldlMin_le_mem xs (Nat.min a x) y h

lemma foldlMin_mem : ∀ (xs : List Nat) (a : Nat),
    xs.foldl Nat.min a = a ∨ xs.foldl Nat.min a ∈ xs
  | [], _ => Or.inl rfl
  | x :: xs, a => by
    rcases foldlMin_mem xs (Nat.min a x) with h | h
    · rcases Nat.le_total a x with hax | hxa
      · refine Or.inl ?_
        rw [List.foldl_cons, h]
        show min a x = a
        omega
      · refine Or.inr ?_
        rw [List.foldl_cons, h]
        have hmin : Nat.min a x = x := by show min a x = x; omega
        rw [hmin]
        exact List.mem_cons_self x xs
    · exact Or.inr (List.mem_cons_of_mem x h)

lemma listMin_le {l : List Nat} {y : Nat} (hy : y ∈ l) : listMin l ≤ y := by
  cases l with
  | nil => cases hy
  | cons x xs =>
    rcases List.mem_cons.1 hy with rfl | h
    · exact foldlMin_le_init xs y
    · exact foldlMin_le_mem xs x y h

lemma listMin_mem {l : List Nat} (h : l ≠ []) : listMin l ∈ l := by
  cases l with
  | nil => exact absurd rfl h
  | cons x xs =>
    show xs.foldl Nat.min x ∈ x :: xs
    rcases foldlMin_mem xs x with h1 | h1
    · rw [h1]; exact List.mem_cons_self x xs
    · exact List.mem_cons_of_mem x h1

/-! ### Lemmas about the per-element substitution -/

lemma substVectorized_cons (slice : Nat) (i : Nat) (p : Nat × List Val)
    (ps : List (Nat × List Val)) (d : List Val) :
    substVectorized slice (p :: ps) i d =
      substVectorized slice ps i (d.set (p.1 - slice) (p.2.getD i Val.undef)) := rfl

lemma substVectorized_length (slice : Nat) (i : Nat) :
    ∀ (ps : List (Nat × List Val)) (d : List Val),
      (substVectorized slice ps i d).length = d.length
  | [], _ => rfl
  | p :: ps, d => by
    rw [substVectorized, List.foldl_cons, ← substVectorized,
      substVectorized_length slice i ps, List.length_set]

lemma substVectorized_getElem?_not_written (slice : Nat) (i : Nat) {k : Nat} :
    ∀ (ps : List (Nat × List Val)) (d : List Val),
      (∀ p ∈ ps, p.1 - slice ≠ k) →
      (substVectorized slice ps i d)[k]? = d[k]?
  | [], _, _ => rfl
  | p :: ps, d, hk => by
    rw [substVectorized, List.foldl_cons, ← substVectorized,
      substVectorized_getElem?_not_written slice i ps _
        (fun q hq => hk q (List.mem_cons_of_mem p hq)),
      List.getElem?_set_ne (hk p (List.mem_cons_self p ps))]

lemma substVectorized_congr (slice : Nat) (i : Nat) :
    ∀ (ps : List (Nat × List Val)) (d₁ d₂ : List Val),
      d₁.length = d₂.length →
      (∀ k, (∀ p ∈ ps, p.1 - slice ≠ k) → d₁[k]? = d₂[k]?) →
      substVectorized slice ps i d₁ = substVectorized slice ps i d₂
  | [], d₁, d₂, _, hagree =>
    List.ext_getElem? (fun k => hagree k (fun p hp => absurd hp (List.not_mem_nil p)))
  | p :: ps, d₁, d₂, hlen, hagree => by
    rw [substVectorized_cons, substVectorized_cons]
    apply substVectorized_congr slice i ps
    · rw [List.length_set, List.length_set, hlen]
    · intro k hk
      by_cases hkp : p.1 - slice = k
      · subst hkp
        rw [List.getElem?_set, List.getElem?_set, hlen]
        simp
      · rw [List.getElem?_set_ne hkp, List.getElem?_set_ne hkp]
        exact hagree k (by
          intro q hq
          rcases List.mem_cons.1 hq with rfl | hq2
          · exact hkp
          · exact hk q hq2)

lemma substVectorized_stable (slice : Nat) (ps : List (Nat × List Val))
    (i j : Nat) (d : List Val) :
    substVectorized slice ps i (substVectorized slice ps j d) =
      substVectorized slice ps i d :=
  substVectorized_congr slice i ps _ d
    (substVectorized_length slice j ps d)
    (fun _ hk => substVectorized_getElem?_not_written slice j ps d hk)

/-! ### The elementwise loop as a `map` over the pristine dynamic window -/

lemma vecLoop_eq_map (meth : List Val → Val) (staticArgs : List Val) (slice : Nat)
    (ps : List (Nat × List Val)) (d0 : List Val) :
    ∀ (n i : Nat) (d : List Val), d.length = d0.length →
      (∀ k, (∀ p ∈ ps, p.1 - slice ≠ k) → d[k]? = d0[k]?) →
      vecLoop meth staticArgs slice ps i n d =
        (List.range' i n).map
          (fun j => meth (staticArgs ++ substVectorized slice ps j d0)) := by
  intro n
  induction n with
  | zero => intro i d _ _; rfl
  | succ n ih =>
    intro i d hlen hagree
    have hd1 : substVectorized slice ps i d = substVectorized slice ps i d0 :=
      substVectorized_congr slice i ps d d0 hlen hagree
    rw [vecLoop, List.range'_succ, List.map_cons, hd1]
    congr 1
    exact ih (i + 1) (substVectorized slice ps i d0)
      ((substVectorized_length slice i ps d0).trans rfl)
      (fun k hk => substVectorized_getElem?_not_written slice i ps d0 hk)

/-! ### Engine-level helper lemmas -/

lemma make_ok_inv {mName : String} {flags : List Bool} {vf : ArrayVectorFunction}
    (h : ArrayVectorFunction.make mName flags = Except.ok vf) :
    vf.method = mName ∧ vf.vectorizedParameterFlags = flags ∧
    vf.vectorizedParameterIndices = vectorizedIndicesOf flags ∧
    vf.sliceIndex = listMin (vectorizedIndicesOf flags) ∧
    vf.vectorizedParameterIndices ≠ [] := by
  simp only [ArrayVectorFunction.make] at h
  split at h
  · cases h
  · rename_i hc
    injection h with h2
    subst h2
    exact ⟨rfl, rfl, rfl, rfl, fun hnil => hc (congrArg List.length hnil)⟩

lemma call_with_specialized {T : Type} {M : TargetModel T} {vf : ArrayVectorFunction}
    {target : T} {f : T → List Val → Val} (params : List Val)
    (hres : resolveSpecialized M vf.method target = some f) :
    VectorFunction.call M vf target params = Except.ok (f target params) := by
  rw [VectorFunction.call, hres]

lemma call_fallback {T : Type} {M : TargetModel T} {vf : ArrayVectorFunction}
    {target : T} {m : T → List Val → Val} (params : List Val)
    (hres : resolveSpecialized M vf.method target = none)
    (hmem : M.getMember target vf.method = some m) :
    VectorFunction.call M vf target params =
      vf.vectorizeSingularCall target m params := by
  rw [VectorFunction.call, hres, hmem]

lemma resolveSpecialized_of_metadata_none {T : Type} {M : TargetModel T}
    {method : String} {target : T} (hmeta : M.getMetadata target method = none) :
    resolveSpecialized M method target = none := by
  rw [resolveSpecialized, hmeta]

lemma resolveSpecialized_of_name_absent {T : Type} {M : TargetModel T}
    {method s : String} {target : T}
    (hmeta : M.getMetadata target method = some (Override.name s))
    (habs : M.getMember target s = none) :
    resolveSpecialized M method target = none := by
  rw [resolveSpecialized, hmeta]
  show (if (Override.name (T := T) s).truthy = true then M.getMember target s
    else none) = none
  by_cases hs : Override.truthy (T := T) (Override.name s) = true
  · rw [if_pos hs]; exact habs
  · rw [if_neg hs]

lemma resolveSpecialized_of_name_present {T : Type} {M : TargetModel T}
    {method s : String} {target : T} {g : T → List Val → Val}
    (hmeta : M.getMetadata target method = some (Override.name s))
    (hs : s ≠ "")
    (hmem : M.getMember target s = some g) :
    resolveSpecialized M method target = some g := by
  rw [resolveSpecialized, hmeta]
  show (if (Override.name (T := T) s).truthy = true then M.getMember target s
    else none) = some g
  have ht : Override.truthy (T := T) (Override.name s) = true := by
    simp [Override.truthy, hs]
  rw [if_pos ht]
  exact hmem

lemma resolveSpecialized_of_fn {T : Type} {M : TargetModel T}
    {method : String} {target : T} {f : T → List Val → Val}
    (hmeta : M.getMetadata target method = some (Override.fn f)) :
    resolveSpecialized M method target = some f := by
  rw [resolveSpecialized, hmeta]
  rfl

lemma jsLength_of_common {params : List Val} {idx n : Nat}
    (h : ∃ xs, params.getD idx Val.undef = Val.arr xs ∧ xs.length = n) :
    (params.getD idx Val.undef).jsLength = some n := by
  rcases h with ⟨xs, hxs, hlen⟩
  rw [hxs, Val.jsLength, hlen]

lemma lengthCheckFails_of_mismatch {params : List Val} {indices : List Nat}
    {a b : Nat} (ha : a ∈ indices) (hb : b ∈ indices)
    (hne : (params.getD a Val.undef).jsLength ≠ (params.getD b Val.undef).jsLength) :
    lengthCheckFails indices params = true := by
  rw [lengthCheckFails, List.any_eq_true]
  rcases List.exists_cons_of_ne_nil (List.ne_nil_of_mem ha) with ⟨idx0, rest, hcons⟩
  have hhead : (indices.map (fun i => (params.getD i Val.undef).jsLength)).headD none
      = (params.getD idx0 Val.undef).jsLength := by
    rw [hcons, List.map_cons, List.headD_cons]
  by_cases hcase : (params.getD a Val.undef).jsLength
      = (params.getD idx0 Val.undef).jsLength
  · refine ⟨(params.getD b Val.undef).jsLength,
      List.mem_map_of_mem _ hb, ?_⟩
    rw [hhead]
    simp only [decide_eq_true_eq]
    intro hcontra
    exact hne (hcase.trans hcontra.symm)
  · refine ⟨(params.getD a Val.undef).jsLength,
      List.mem_map_of_mem _ ha, ?_⟩
    rw [hhead]
    simp only [decide_eq_true_eq]
    exact hcase

lemma vectorizeSingularCall_mismatch {T : Type} (vf : ArrayVectorFunction)
    (target : T) (m : T → List Val → Val) (params : List Val)
    (hlen2 : vf.vectorizedParameterIndices.length > 1)
    (hfail : lengthCheckFails vf.vectorizedParameterIndices params = true) :
    vf.vectorizeSingularCall target m params =
      Except.error EngineError.lengthMismatchError := by
  rw [ArrayVectorFunction.vectorizeSingularCall, hfail, Bool.and_true,
    if_pos (by simp [hlen2])]

lemma vectorizedIndicesOf_all_false {flags : List Bool}
    (hall : ∀ b ∈ flags, b = false) : vectorizedIndicesOf flags = [] := by
  rw [vectorizedIndicesOf]
  have hfil : (flags.enum).filter (fun p => p.2) = [] := by
    rw [List.filter_eq_nil_iff]
    rintro ⟨i, x⟩ hp
    rcases List.mem_enum hp with ⟨hi, hx⟩
    have hxmem : x ∈ flags := hx ▸ List.getElem_mem hi
    simp [hall x hxmem]
  rw [hfil, List.map_nil]

/-- The fallback elementwise algorithm, characterized: when all vectorized
arguments are arrays of common length `n`, `vectorizeSingularCall`
produces, in ascending index order, the scalar results on the substituted
argument lists `callArgsAt`. -/
lemma vectorizeSingularCall_eq_map {T : Type} (vf : ArrayVectorFunction) (target : T)
    (m : T → List Val → Val) (params : List Val) (n : Nat)
    (hne : vf.vectorizedParameterIndices ≠ [])
    (hvec : ∀ idx ∈ vf.vectorizedParameterIndices,
      ∃ xs, params.getD idx Val.undef = Val.arr xs ∧ xs.length = n) :
    vf.vectorizeSingularCall target m params =
      Except.ok (Val.arr ((List.range n).map (fun i =>
        m target (callArgsAt vf.sliceIndex
          (vf.vectorizedParameterIndices.zip (itemsOf vf params)) params i)))) := by
  rcases List.exists_cons_of_ne_nil hne with ⟨idx0, rest, hcons⟩
  have hjs : ∀ idx ∈ vf.vectorizedParameterIndices,
      (params.getD idx Val.undef).jsLength = some n :=
    fun idx hidx => jsLength_of_common (hvec idx hidx)
  have hfail : lengthCheckFails vf.vectorizedParameterIndices params = false := by
    rw [lengthCheckFails, List.any_eq_false]
    intro x hx
    rcases List.mem_map.1 hx with ⟨idx, hidx, rfl⟩
    have hhead : (vf.vectorizedParameterIndices.map
        (fun i => (params.getD i Val.undef).jsLength)).headD none = some n := by
      rw [hcons, List.map_cons, List.headD_cons]
      exact hjs idx0 (hcons ▸ List.mem_cons_self idx0 rest)
    rw [hjs idx hidx, hhead]
    simp
  have hn : ((itemsOf vf params).headD []).length = n := by
    rcases hvec idx0 (hcons ▸ List.mem_cons_self idx0 rest) with ⟨xs0, hxs0, hlen0⟩
    rw [itemsOf, hcons, List.map_cons, List.headD_cons, hxs0, Val.asArr, hlen0]
  have hloop : vecLoop (fun args => m target args) (params.take vf.sliceIndex)
      vf.sliceIndex (vf.vectorizedParameterIndices.zip (itemsOf vf params)) 0 n
      (params.drop vf.sliceIndex) =
      (List.range n).map (fun j => (fun args => m target args)
        (params.take vf.sliceIndex ++ substVectorized vf.sliceIndex
          (vf.vectorizedParameterIndices.zip (itemsOf vf params)) j
          (params.drop vf.sliceIndex))) := by
    rw [vecLoop_eq_map (fun args => m target args) (params.take vf.sliceIndex)
      vf.sliceIndex (vf.vectorizedParameterIndices.zip (itemsOf vf params))
      (params.drop vf.sliceIndex) n 0 (params.drop vf.sliceIndex) rfl
      (fun _ _ => rfl), ← List.range_eq_range']
  rw [ArrayVectorFunction.vectorizeSingularCall]
  rw [hfail, Bool.and_false, if_neg (by simp)]
  show Except.ok (Val.arr (vecLoop (fun args => m target args)
      (params.take vf.sliceIndex) vf.sliceIndex
      (vf.vectorizedParameterIndices.zip (itemsOf vf params)) 0
      ((itemsOf vf params).headD []).length (params.drop vf.sliceIndex))) = _
  rw [hn, hloop]
  rfl

/-! ### Frame lemmas for the heap-level fallback -/

lemma writeIdx_cells_getD_ne (h : Heap) {r r' : Nat} (i : Nat) (v : HVal)
    (hne : r' ≠ r) :
    (h.writeIdx r i v).cells.getD r' [] = h.cells.getD r' [] := by
  rw [Heap.writeIdx]
  rw [List.getD_eq_getElem?_getD, List.getElem?_set_ne (Ne.symm hne),
    ← List.getD_eq_getElem?_getD]

lemma substHeapWrites_cons (slice dynRef : Nat) (p : Nat × HVal)
    (ps : List (Nat × HVal)) (i : Nat) (h : Heap) :
    substHeapWrites slice dynRef (p :: ps) i h =
      substHeapWrites slice dynRef ps i
        (h.writeIdx dynRef (p.1 - slice) (HVal.indexH h p.2 i)) := rfl

lemma substHeapWrites_cells_getD_ne {slice dynRef : Nat} {i : Nat} {r : Nat}
    (hne : r ≠ dynRef) :
    ∀ (ps : List (Nat × HVal)) (h : Heap),
      (substHeapWrites slice dynRef ps i h).cells.getD r [] = h.cells.getD r []
  | [], _ => rfl
  | p :: ps, h => by
    rw [substHeapWrites_cons,
      substHeapWrites_cells_getD_ne hne ps,
      writeIdx_cells_getD_ne h _ _ hne]

lemma vecLoopHeap_cells_getD_ne {meth : List HVal → HVal} {staticArgs : List HVal}
    {slice dynRef : Nat} {ps : List (Nat × HVal)} {r : Nat} (hne : r ≠ dynRef) :
    ∀ (n i : Nat) (h : Heap),
      ((vecLoopHeap meth staticArgs slice dynRef ps i n h).1).cells.getD r [] =
        h.cells.getD r []
  | 0, _, _ => rfl
  | n + 1, i, h => by
    rw [vecLoopHeap]
    exact (vecLoopHeap_cells_getD_ne hne n (i + 1) _).trans
      (substHeapWrites_cells_getD_ne hne ps h)

/-! ### Concrete collaborator models (external "operations" objects used
to instantiate the engine's contract on closed inputs) -/

/-- `square(x) = x*x` as a scalar method member. -/
def squareFn : Unit → List Val → Val := fun _ args =>
  match args.getD 0 Val.undef with
  | Val.int x => Val.int (x * x)
  | _ => Val.undef

/-- A target exposing only the scalar `square`, with no specialization
metadata. -/
def squareModel : TargetModel Unit where
  getMember := fun _ nm => if nm = "square" then some squareFn else none
  getMetadata := fun _ _ => none

/-- The engine for `square` with the single position 0 vectorized. -/
def squareEngine : ArrayVectorFunction := ⟨"square", [true], [0], 0⟩

/-- `sub(a, b) = a - b` as a scalar method member. -/
def subFn : Unit → List Val → Val := fun _ args =>
  match args.getD 0 Val.undef, args.getD 1 Val.undef with
  | Val.int a, Val.int b => Val.int (a - b)
  | _, _ => Val.undef

/-- A target exposing only the scalar `sub`, with no specialization
metadata. -/
def subModel : TargetModel Unit where
  getMember := fun _ nm => if nm = "sub" then some subFn else none
  getMetadata := fun _ _ => none

/-- The engine for `sub` with positions 0 and 1 both vectorized. -/
def subEngine : ArrayVectorFunction := ⟨"sub", [true, true], [0, 1], 0⟩

/-- A bulk specialization for `sub` that returns an empty array whatever
its arguments are (standing in for an implementation trusted with its own
shape handling). -/
def subSpecFn : Unit → List Val → Val := fun _ _ => Val.arr []

/-- A target whose `sub` carries `@vectorized("sub_vectorized")` metadata
and which has the named member. -/
def subSpecModel : TargetModel Unit where
  getMember := fun _ nm => if nm = "sub_vectorized" then some subSpecFn else none
  getMetadata := fun _ nm =>
    if nm = "sub" then some (Override.name "sub_vectorized") else none

/-- `scaleThenAdd(k, x) = k*x + 1` as a scalar method member. -/
def scaleThenAddFn : Unit → List Val → Val := fun _ args =>
  match args.getD 0 Val.undef, args.getD 1 Val.undef with
  | Val.int k, Val.int x => Val.int (k * x + 1)
  | _, _ => Val.undef

/-- A target exposing only the scalar `scaleThenAdd`, with no
specialization metadata. -/
def scaleModel : TargetModel Unit where
  getMember := fun _ nm => if nm = "scaleThenAdd" then some scaleThenAddFn else none
  getMetadata := fun _ _ => none

/-- The engine for `scaleThenAdd`: static `k` at position 0, vectorized
`x` at position 1. -/
def scaleEngine : ArrayVectorFunction := ⟨"scaleThenAdd", [false, true], [1], 1⟩

/-- The engine for a one-argument `calc` with position 0 vectorized. -/
def calcEngine : ArrayVectorFunction := ⟨"calc", [true], [0], 0⟩

/-- Two runtime "subtypes" (the two booleans), each supplying its own
member of the shared symbolic name `calc_vectorized`; `calc` is decorated
with that name. -/
def polyModel : TargetModel Bool where
  getMember := fun t nm =>
    if nm = "calc_vectorized" then
      if t then some (fun _ _ => Val.int 1) else some (fun _ _ => Val.int 2)
    else none
  getMetadata := fun _ nm =>
    if nm = "calc" then some (Override.name "calc_vectorized") else none

/-- A target whose `calc` metadata carries a directly captured function
value. -/
def fnModel : TargetModel Unit where
  getMember := fun _ _ => none
  getMetadata := fun _ nm =>
    if nm = "calc" then some (Override.fn (fun _ _ => Val.int 7)) else none

/-- `calcFive() = 5` as a scalar method member. -/
def calcFiveFn : Unit → List Val → Val := fun _ _ => Val.int 5

/-- A target whose `calc` metadata names a member that does not exist on
the instance (`missing_vectorized`), while the scalar `calc` itself is
present. -/
def orphanModel : TargetModel Unit where
  getMember := fun _ nm => if nm = "calc" then some calcFiveFn else none
  getMetadata := fun _ nm =>
    if nm = "calc" then some (Override.name "missing_vectorized") else none

/-- A two-cell heap holding the caller's two argument arrays. -/
def demoHeap : Heap :=
  ⟨[[HVal.imm (Val.int 5), HVal.imm (Val.int 5)],
    [HVal.imm (Val.int 2), HVal.imm (Val.int 3)]]⟩

/-! ### Claim theorems -/

/-- Claim C1: on the fallback path (no specialization registered for the
target's type and method name), for every constructed engine, target and
call whose vectorized arguments are all arrays of common length `n`,
`call` returns a sequence of length `n` whose `i`-th element is the
scalar method applied to the static prefix followed by the dynamic window
with, at each vectorized position, the `i`-th element of that position's
argument array substituted (`callArgsAt`); the `List.range n` map fixes
ascending index order.  At a single vectorized position 0 this is
`xs.map f` (see the witness). -/
theorem claim_C1_fallback_elementwise {T : Type} (M : TargetModel T)
    (mName : String) (flags : List Bool) (vf : ArrayVectorFunction) (target : T)
    (m : T → List Val → Val) (params : List Val) (n : Nat)
    (hmk : ArrayVectorFunction.make mName flags = Except.ok vf)
    (hmeta : M.getMetadata target vf.method = none)
    (hmem : M.getMember target vf.method = some m)
    (hvec : ∀ idx ∈ vf.vectorizedParameterIndices,
      ∃ xs, params.getD idx Val.undef = Val.arr xs ∧ xs.length = n) :
    VectorFunction.call M vf target params =
      Except.ok (Val.arr ((List.range n).map (fun i =>
        m target (callArgsAt vf.sliceIndex
          (vf.vectorizedParameterIndices.zip (itemsOf vf params)) params i)))) := by
  rw [call_fallback params (resolveSpecialized_of_metadata_none hmeta) hmem]
  exact vectorizeSingularCall_eq_map vf target m params n
    (make_ok_inv hmk).2.2.2.2 hvec

/-- Witness for C1: the engine built for `square` with position 0
vectorized maps `[2, 3]` to `[4, 9]`, i.e. `xs.map f`. -/
theorem claim_C1_witness :
    VectorFunction.call squareModel squareEngine ()
        [Val.arr [Val.int 2, Val.int 3]] =
      Except.ok (Val.arr [Val.int 4, Val.int 9]) := by
  have h := claim_C1_fallback_elementwise squareModel "square" [true] squareEngine ()
    squareFn [Val.arr [Val.int 2, Val.int 3]] 2 rfl rfl rfl
    (fun idx hidx => by
      rw [List.mem_singleton.1 hidx]
      exact ⟨[Val.int 2, Val.int 3], rfl, rfl⟩)
  rw [h]
  rfl

/-- Claim C2: when a specialization resolves for the target's runtime
type and the configured method name, `call` invokes it directly with
exactly the supplied parameters (receiver bound to the target), performs
no length validation of its own (the parameters here are arbitrary,
including mismatched-length arrays), and returns the specialization's
result as the bulk result. -/
theorem claim_C2_specialized_direct {T : Type} (M : TargetModel T)
    (vf : ArrayVectorFunction) (target : T) (f : T → List Val → Val)
    (params : List Val)
    (hres : resolveSpecialized M vf.method target = some f) :
    VectorFunction.call M vf target params = Except.ok (f target params) :=
  call_with_specialized params hres

/-- Witness for C2: with the `sub_vectorized` specialization registered,
a call with vectorized arguments of lengths 2 and 1 is not rejected; the
specialization's result is returned. -/
theorem claim_C2_witness :
    VectorFunction.call subSpecModel subEngine ()
        [Val.arr [Val.int 5, Val.int 5], Val.arr [Val.int 2]] =
      Except.ok (Val.arr []) :=
  claim_C2_specialized_direct subSpecModel subEngine () subSpecFn
    [Val.arr [Val.int 5, Val.int 5], Val.arr [Val.int 2]]
    (resolveSpecialized_of_name_present rfl (by decide) rfl)

/-- Claim C3: with two or more vectorized positions whose argument arrays
do not all have equal length, the fallback path of `call` fails with the
length-mismatch error.  The scalar method `m` is universally quantified
and absent from the conclusion, so the result does not depend on it: the
scalar method is invoked zero times and no partial output is produced. -/
theorem claim_C3_length_mismatch {T : Type} (M : TargetModel T)
    (vf : ArrayVectorFunction) (target : T) (m : T → List Val → Val)
    (params : List Val) (a b : Nat) (xsa xsb : List Val)
    (hmeta : M.getMetadata target vf.method = none)
    (hmem : M.getMember target vf.method = some m)
    (hlen2 : vf.vectorizedParameterIndices.length > 1)
    (ha : a ∈ vf.vectorizedParameterIndices)
    (hb : b ∈ vf.vectorizedParameterIndices)
    (hxa : params.getD a Val.undef = Val.arr xsa)
    (hxb : params.getD b Val.undef = Val.arr xsb)
    (hlen : xsa.length ≠ xsb.length) :
    VectorFunction.call M vf target params =
      Except.error EngineError.lengthMismatchError := by
  rw [call_fallback params (resolveSpecialized_of_metadata_none hmeta) hmem]
  have hne : (params.getD a Val.undef).jsLength
      ≠ (params.getD b Val.undef).jsLength := by
    rw [hxa, hxb]
    simp [Val.jsLength]
    exact hlen
  exact vectorizeSingularCall_mismatch vf target m params hlen2
    (lengthCheckFails_of_mismatch ha hb hne)

/-- Witness for C3: `sub` with both positions vectorized rejects
`([5,5], [2])` with the length-mismatch error. -/
theorem claim_C3_witness :
    VectorFunction.call subModel subEngine ()
        [Val.arr [Val.int 5, Val.int 5], Val.arr [Val.int 2]] =
      Except.error EngineError.lengthMismatchError :=
  claim_C3_length_mismatch subModel subEngine () subFn
    [Val.arr [Val.int 5, Val.int 5], Val.arr [Val.int 2]] 0 1
    [Val.int 5, Val.int 5] [Val.int 2] rfl rfl (by decide) (by decide) (by decide)
    rfl rfl (by decide)

/-- Claim C4: constructing an engine whose descriptor marks zero
positions as vectorized always fails with the configuration error before
any call can be made; the error is not silently corrected. -/
theorem claim_C4_config_error (mName : String) (flags : List Bool)
    (hall : ∀ b ∈ flags, b = false) :
    ArrayVectorFunction.make mName flags =
      Except.error EngineError.configurationError := by
  simp [ArrayVectorFunction.make, vectorizedIndicesOf_all_false hall]

/-- Witness for C4: the all-static two-parameter descriptor is rejected
at construction. -/
theorem claim_C4_witness :
    ArrayVectorFunction.make "calc" [false, false] =
      Except.error EngineError.configurationError :=
  claim_C4_config_error "calc" [false, false] (by decide)

/-- Claim C5: for a constructed engine, `sliceIndex` is one of the
vectorized positions and a lower bound of them (the lowest vectorized
position); on the fallback path, element `i` of the output is the scalar
method on `callArgsAt`; every position `p` before `sliceIndex` (static
prefix) reads back the original `params[p]` in every per-element argument
list, and every non-vectorized position `p` at or after `sliceIndex`
(dynamic window) also reads back the original `params[p]` in every
per-element argument list. -/
theorem claim_C5_slice_and_static {T : Type} (M : TargetModel T)
    (mName : String) (flags : List Bool) (vf : ArrayVectorFunction) (target : T)
    (m : T → List Val → Val) (params : List Val) (n : Nat)
    (hmk : ArrayVectorFunction.make mName flags = Except.ok vf)
    (hmeta : M.getMetadata target vf.method = none)
    (hmem : M.getMember target vf.method = some m)
    (hvec : ∀ idx ∈ vf.vectorizedParameterIndices,
      ∃ xs, params.getD idx Val.undef = Val.arr xs ∧ xs.length = n) :
    (vf.sliceIndex ∈ vf.vectorizedParameterIndices ∧
      ∀ idx ∈ vf.vectorizedParameterIndices, vf.sliceIndex ≤ idx) ∧
    VectorFunction.call M vf target params =
      Except.ok (Val.arr ((List.range n).map (fun i =>
        m target (callArgsAt vf.sliceIndex
          (vf.vectorizedParameterIndices.zip (itemsOf vf params)) params i)))) ∧
    (∀ i p, p < params.length → p < vf.sliceIndex →
      (callArgsAt vf.sliceIndex
        (vf.vectorizedParameterIndices.zip (itemsOf vf params)) params i)[p]? =
        params[p]?) ∧
    (∀ i p, p < params.length → vf.sliceIndex ≤ p →
      p ∉ vf.vectorizedParameterIndices →
      (callArgsAt vf.sliceIndex
        (vf.vectorizedParameterIndices.zip (itemsOf vf params)) params i)[p]? =
        params[p]?) := by
  obtain ⟨_, _, hidx, hslice, hne⟩ := make_ok_inv hmk
  have hne2 : vectorizedIndicesOf flags ≠ [] := by rw [← hidx]; exact hne
  refine ⟨⟨?_, ?_⟩, ?_, ?_, ?_⟩
  · rw [hslice, hidx]
    exact listMin_mem hne2
  · intro idx hi
    rw [hslice]
    exact listMin_le (by rw [← hidx]; exact hi)
  · rw [call_fallback params (resolveSpecialized_of_metadata_none hmeta) hmem]
    exact vectorizeSingularCall_eq_map vf target m params n hne hvec
  · intro i p hplen hpslice
    have htl : p < (params.take vf.sliceIndex).length := by
      rw [List.length_take]; omega
    rw [callArgsAt, List.getElem?_append, if_pos htl, List.getElem?_take,
      if_pos hpslice]
  · intro i p hplen hslicep hnotin
    have htl : (params.take vf.sliceIndex).length = vf.sliceIndex := by
      rw [List.length_take]; omega
    have hw : ∀ q ∈ vf.vectorizedParameterIndices.zip (itemsOf vf params),
        q.1 - vf.sliceIndex ≠ p - vf.sliceIndex := by
      intro q hq
      have hq1 : q.1 ∈ vf.vectorizedParameterIndices := (List.of_mem_zip hq).1
      have hle : vf.sliceIndex ≤ q.1 := by
        rw [hslice]
        exact listMin_le (by rw [← hidx]; exact hq1)
      have hqp : q.1 ≠ p := fun hh => hnotin (hh ▸ hq1)
      omega
    rw [callArgsAt, List.getElem?_append, htl, if_neg (by omega),
      substVectorized_getElem?_not_written vf.sliceIndex i _ _ hw,
      List.getElem?_drop]
    congr 1
    omega

/-- Witness for C5: for the `scaleThenAdd` engine (static position 0,
vectorized position 1), `sliceIndex = 1` is the vectorized position, and
the static argument `3` is passed through unchanged in the element-2
argument list. -/
theorem claim_C5_witness :
    scaleEngine.sliceIndex ∈ scaleEngine.vectorizedParameterIndices ∧
    (callArgsAt scaleEngine.sliceIndex
      (scaleEngine.vectorizedParameterIndices.zip
        (itemsOf scaleEngine [Val.int 3, Val.arr [Val.int 1, Val.int 2, Val.int 3]]))
      [Val.int 3, Val.arr [Val.int 1, Val.int 2, Val.int 3]] 2)[0]? =
      some (Val.int 3) := by
  have h := claim_C5_slice_and_static scaleModel "scaleThenAdd" [false, true]
    scaleEngine () scaleThenAddFn
    [Val.int 3, Val.arr [Val.int 1, Val.int 2, Val.int 3]] 3 rfl rfl rfl
    (fun idx hidx => by
      rw [List.mem_singleton.1 hidx]
      exact ⟨[Val.int 1, Val.int 2, Val.int 3], rfl, rfl⟩)
  exact ⟨h.1.1, h.2.2.1 2 0 (by decide) (by decide)⟩

/-- Claim C6: specialization lookup by symbolic name is late-bound — on
each call the override is read off the actual runtime target under the
declared name and invoked with that target as receiver (so different
targets supplying different members of the same name each get their own
override) — while a directly declared function value is invoked as
captured. -/
theorem claim_C6_late_binding {T : Type} (M : TargetModel T)
    (vf : ArrayVectorFunction) (target : T) (params : List Val) :
    (∀ (s : String) (g : T → List Val → Val),
      M.getMetadata target vf.method = some (Override.name s) → s ≠ "" →
      M.getMember target s = some g →
      VectorFunction.call M vf target params = Except.ok (g target params)) ∧
    (∀ f : T → List Val → Val,
      M.getMetadata target vf.method = some (Override.fn f) →
      VectorFunction.call M vf target params = Except.ok (f target params)) :=
  ⟨fun _ _ hmeta hs hmem =>
      call_with_specialized params (resolveSpecialized_of_name_present hmeta hs hmem),
    fun _ hmeta => call_with_specialized params (resolveSpecialized_of_fn hmeta)⟩

/-- Witness for C6: two runtime subtypes with different members of the
shared symbolic name each get their own override, and a directly declared
function value is used as captured. -/
theorem claim_C6_witness :
    VectorFunction.call polyModel calcEngine true [Val.arr []] =
      Except.ok (Val.int 1) ∧
    VectorFunction.call polyModel calcEngine false [Val.arr []] =
      Except.ok (Val.int 2) ∧
    VectorFunction.call fnModel calcEngine () [Val.arr []] =
      Except.ok (Val.int 7) :=
  ⟨(claim_C6_late_binding polyModel calcEngine true [Val.arr []]).1
      "calc_vectorized" (fun _ _ => Val.int 1) rfl (by decide) rfl,
    (claim_C6_late_binding polyModel calcEngine false [Val.arr []]).1
      "calc_vectorized" (fun _ _ => Val.int 2) rfl (by decide) rfl,
    (claim_C6_late_binding fnModel calcEngine () [Val.arr []]).2
      (fun _ _ => Val.int 7) rfl⟩

/-- Claim C7: when the declared override is a symbolic name and the
runtime target has no member of that name, `call` raises no error for the
failed resolution: it proceeds on the elementwise fallback path exactly
as if no specialization existed. -/
theorem claim_C7_unresolved_name_fallback {T : Type} (M : TargetModel T)
    (vf : ArrayVectorFunction) (target : T) (m : T → List Val → Val)
    (params : List Val) (s : String)
    (hmeta : M.getMetadata target vf.method = some (Override.name s))
    (habs : M.getMember target s = none)
    (hmem : M.getMember target vf.method = some m) :
    VectorFunction.call M vf target params =
      vf.vectorizeSingularCall target m params :=
  call_fallback params (resolveSpecialized_of_name_absent hmeta habs) hmem

/-- Witness for C7: a target whose metadata names the missing member
`missing_vectorized` falls back to the elementwise loop and produces its
result (no error from the failed resolution). -/
theorem claim_C7_witness :
    VectorFunction.call orphanModel calcEngine () [Val.arr [Val.int 4]] =
      Except.ok (Val.arr [Val.int 5]) :=
  (claim_C7_unresolved_name_fallback orphanModel calcEngine () calcFiveFn
    [Val.arr [Val.int 4]] "missing_vectorized" rfl rfl rfl).trans rfl

/-- Claim C8: for a target whose scalar method is
`scaleThenAdd(k, x) = k*x + 1` with no specialization registered, and the
engine constructed with static position 0 and vectorized position 1,
`call(target, 3, [1, 2, 3])` returns `[4, 7, 10]`. -/
theorem claim_C8_concrete :
    ArrayVectorFunction.make "scaleThenAdd" [false, true] =
      Except.ok scaleEngine ∧
    VectorFunction.call scaleModel scaleEngine ()
      [Val.int 3, Val.arr [Val.int 1, Val.int 2, Val.int 3]] =
      Except.ok (Val.arr [Val.int 4, Val.int 7, Val.int 10]) :=
  ⟨rfl, rfl⟩

/-- Claim C9: on the fallback path, when every vectorized argument is the
empty array, `call` returns the empty output sequence with no error; the
scalar method `m` is universally quantified and absent from the
conclusion, so it is invoked zero times. -/
theorem claim_C9_empty_vectors {T : Type} (M : TargetModel T)
    (mName : String) (flags : List Bool) (vf : ArrayVectorFunction) (target : T)
    (m : T → List Val → Val) (params : List Val)
    (hmk : ArrayVectorFunction.make mName flags = Except.ok vf)
    (hmeta : M.getMetadata target vf.method = none)
    (hmem : M.getMember target vf.method = some m)
    (hvec : ∀ idx ∈ vf.vectorizedParameterIndices,
      params.getD idx Val.undef = Val.arr []) :
    VectorFunction.call M vf target params = Except.ok (Val.arr []) := by
  rw [call_fallback params (resolveSpecialized_of_metadata_none hmeta) hmem,
    vectorizeSingularCall_eq_map vf target m params 0 (make_ok_inv hmk).2.2.2.2
      (fun idx hidx => ⟨[], hvec idx hidx, rfl⟩)]
  rfl

/-- Witness for C9: `square` over the empty array yields the empty
array. -/
theorem claim_C9_witness :
    VectorFunction.call squareModel squareEngine () [Val.arr []] =
      Except.ok (Val.arr []) :=
  claim_C9_empty_vectors squareModel "square" [true] squareEngine () squareFn
    [Val.arr []] rfl rfl rfl
    (fun idx hidx => by rw [List.mem_singleton.1 hidx]; rfl)

/-- Claim C10: the heap-level fallback never mutates any pre-existing
cell — in particular no caller-supplied argument array: the static prefix
and dynamic window are slice copies, the per-iteration substitution
writes only into the freshly allocated dynamic-window cell, and the
vectorized source arrays are only read by index. -/
theorem claim_C10_no_caller_mutation (vf : ArrayVectorFunction)
    (meth : List HVal → HVal) (params : List HVal) (h : Heap) (r : Nat)
    (hr : r < h.cells.length) :
    ((vectorizeSingularCallHeap vf meth params h).1).cells.getD r [] =
      h.cells.getD r [] := by
  rw [vectorizeSingularCallHeap]
  split
  · rfl
  · show ((vecLoopHeap meth (params.take vf.sliceIndex) vf.sliceIndex
        h.cells.length
        (vf.vectorizedParameterIndices.zip (vf.vectorizedParameterIndices.map
          (fun i => params.getD i (HVal.imm Val.undef)))) 0
        ((HVal.jsLengthH h ((vf.vectorizedParameterIndices.map
          (fun i => params.getD i (HVal.imm Val.undef))).headD
          (HVal.imm Val.undef))).getD 0)
        ⟨h.cells ++ [params.drop vf.sliceIndex]⟩).1).cells.getD r [] =
      h.cells.getD r []
    rw [vecLoopHeap_cells_getD_ne (show r ≠ h.cells.length by omega)]
    show (h.cells ++ [params.drop vf.sliceIndex]).getD r [] = h.cells.getD r []
    rw [List.getD_eq_getElem?_getD, List.getElem?_append, if_pos hr,
      ← List.getD_eq_getElem?_getD]

/-- Witness for C10: running the heap-level `sub` fallback over two
caller arrays leaves both caller cells unchanged. -/
theorem claim_C10_witness :
    ((vectorizeSingularCallHeap subEngine (fun _ => HVal.imm Val.undef)
        [HVal.ref 0, HVal.ref 1] demoHeap).1).cells.getD 0 [] =
      demoHeap.cells.getD 0 [] ∧
    ((vectorizeSingularCallHeap subEngine (fun _ => HVal.imm Val.undef)
        [HVal.ref 0, HVal.ref 1] demoHeap).1).cells.getD 1 [] =
      demoHeap.cells.getD 1 [] :=
  ⟨claim_C10_no_caller_mutation subEngine (fun _ => HVal.imm Val.undef)
      [HVal.ref 0, HVal.ref 1] demoHeap 0 (by decide),
    claim_C10_no_caller_mutation subEngine (fun _ => HVal.imm Val.undef)
      [HVal.ref 0, HVal.ref 1] demoHeap 1 (by decide)⟩
